import Mathlib

/-!
Shallow embedding of the azure-cost-exporter metrics collection engine.

The definitions below are translated from the Go sources:
  * `internal/provider/provider.go`   — the `CostRecord` data model;
  * `internal/collector/cost_collector.go` — label extraction, the
    aggregation loop of `Collect`, the `refresh` cycle, readiness and the
    background-refresh scheduler;
  * `internal/azure/cost_client.go`   — `QueryCosts`, the per-subscription
    retry wrapper and the response parser.

Modelling conventions: Go's `(value, error)` pairs are modelled as
`Except`; Go maps are modelled as association lists with
insert-or-overwrite semantics (`goInsert` / `goLookup`); wall-clock
instants and durations are abstract naturals.  Go `float64` cost fields
are carried as rationals where only their values are moved around, but the
`Collect` accumulation loop — whose `+=` is IEEE-754 addition, neither
associative nor commutative — is embedded parametrically in the cost
carrier and the accumulation operation, with no algebraic law assumed.
-/

namespace CostExporter

/-- `provider.CostRecord` (internal/provider/provider.go): one billing line. -/
structure CostRecord where
  date : String
  provider : String
  accountID : String
  accountName : String
  service : String
  cost : ℚ
  currency : String
  resourceType : String
  resourceGroup : String
  resourceLocation : String
  resourceID : String
  resourceName : String
  meterCategory : String
  meterSubCategory : String
  chargeType : String
  pricingModel : String
deriving DecidableEq

/-- The Go zero value of `CostRecord`: empty strings and cost 0. -/
def emptyRecord : CostRecord :=
  { date := "", provider := "", accountID := "", accountName := "", service := ""
    cost := 0, currency := "", resourceType := "", resourceGroup := ""
    resourceLocation := "", resourceID := "", resourceName := ""
    meterCategory := "", meterSubCategory := "", chargeType := "", pricingModel := "" }

/-- `config.Subscription`: one Azure subscription (id + human name). -/
structure Subscription where
  id : String
  name : String
deriving DecidableEq

/-! ### Go map operations

Go maps are modelled as association lists.  `m[k] = v` either overwrites the
existing binding for `k` or appends a new one; `m[k]` reads the binding or the
zero value.  The iteration-order-sensitive parts of `Collect` are stated via
`goLookup`, which is insertion-order independent. -/

/-- Read a binding from a Go map (first — and, with nodup keys, only — match). -/
def goLookup {β : Type} : List (String × β) → String → Option β
  | [], _ => none
  | (k0, v0) :: m, k => if k = k0 then some v0 else goLookup m k

/-- Write a binding into a Go map: overwrite if present, append otherwise. -/
def goInsert {β : Type} : List (String × β) → String → β → List (String × β)
  | [], k, v => [(k, v)]
  | (k0, v0) :: m, k, v => if k = k0 then (k, v) :: m else (k0, v0) :: goInsert m k v

theorem goLookup_goInsert_self {β : Type} (m : List (String × β)) (k : String) (v : β) :
    goLookup (goInsert m k v) k = some v := by
  induction m with
  | nil => simp [goInsert, goLookup]
  | cons hd tl ih =>
    obtain ⟨k0, v0⟩ := hd
    by_cases h : k = k0
    · simp [goInsert, goLookup, h]
    · simp [goInsert, goLookup, h, ih]

theorem goLookup_goInsert_ne {β : Type} (m : List (String × β)) (k k2 : String) (v : β)
    (h : k2 ≠ k) : goLookup (goInsert m k v) k2 = goLookup m k2 := by
  induction m with
  | nil => simp [goInsert, goLookup, h]
  | cons hd tl ih =>
    obtain ⟨k0, v0⟩ := hd
    by_cases hk : k = k0
    · subst hk; simp [goInsert, goLookup, h]
    · by_cases hk2 : k2 = k0
      · simp [goInsert, goLookup, hk, hk2]
      · simp [goInsert, goLookup, hk, hk2, ih]

/-- Membership in a Go map after an insert: the new binding or an old one. -/
theorem mem_goInsert {β : Type} (m : List (String × β)) (k : String) (v : β)
    (x : String × β) (hx : x ∈ goInsert m k v) : x = (k, v) ∨ x ∈ m := by
  induction m with
  | nil => simpa [goInsert] using hx
  | cons hd tl ih =>
    obtain ⟨k0, v0⟩ := hd
    simp only [goInsert] at hx
    split at hx
    · rcases List.mem_cons.mp hx with h1 | h1
      · exact Or.inl h1
      · exact Or.inr (List.mem_cons_of_mem _ h1)
    · rcases List.mem_cons.mp hx with h1 | h1
      · exact Or.inr (List.mem_cons.mpr (Or.inl h1))
      · rcases ih h1 with h2 | h2
        · exact Or.inl h2
        · exact Or.inr (List.mem_cons_of_mem _ h2)

theorem goInsert_keys_nodup {β : Type} (m : List (String × β)) (k : String) (v : β)
    (h : (m.map Prod.fst).Nodup) : ((goInsert m k v).map Prod.fst).Nodup := by
  induction m with
  | nil => simp [goInsert]
  | cons hd tl ih =>
    obtain ⟨k0, v0⟩ := hd
    simp only [List.map_cons, List.nodup_cons] at h
    simp only [goInsert]
    split
    case isTrue hk =>
      subst hk
      simp only [List.map_cons, List.nodup_cons]
      exact h
    case isFalse hk =>
      simp only [List.map_cons, List.nodup_cons]
      refine ⟨?_, ih h.2⟩
      intro hmem
      rcases List.mem_map.mp hmem with ⟨⟨ka, va⟩, hmema, hfst⟩
      rcases mem_goInsert tl k v ⟨ka, va⟩ hmema with hcase | hcase
      · exact hk ((congrArg Prod.fst hcase).symm.trans hfst)
      · exact h.1 (List.mem_map.mpr ⟨⟨ka, va⟩, hcase, hfst⟩)

/-! ### Label extraction (`extractLabelValues`, cost_collector.go lines 41-83) -/

/-- One arm of the `switch labelName` in `extractLabelValues`. -/
def extractLabelValue (record : CostRecord) (labelName : String) : String :=
  match labelName with
  | "provider" => record.provider
  | "account_name" => record.accountName
  | "account_id" => record.accountID
  | "service" => record.service
  | "resource_type" => record.resourceType
  | "resource_group" => record.resourceGroup
  | "resource_location" => record.resourceLocation
  | "resource_id" => record.resourceID
  | "resource_name" => record.resourceName
  | "meter_category" => record.meterCategory
  | "meter_subcategory" => record.meterSubCategory
  | "charge_type" => record.chargeType
  | "pricing_model" => record.pricingModel
  | "date" => record.date
  | "currency" => record.currency
  | _ => ""

/-- `extractLabelValues`: the loop filling `values[i]` from `labelNames[i]`. -/
def extractLabelValues (record : CostRecord) (labelNames : List String) : List String :=
  labelNames.map (extractLabelValue record)

/-- The label names recognized by the `switch` in `extractLabelValues`. -/
def recognizedLabelNames : List String :=
  ["provider", "account_name", "account_id", "service",
   "resource_type", "resource_group", "resource_location", "resource_id", "resource_name",
   "meter_category", "meter_subcategory", "charge_type", "pricing_model",
   "date", "currency"]

theorem extractLabelValue_unrecognized (record : CostRecord) (labelName : String)
    (h : labelName ∉ recognizedLabelNames) : extractLabelValue record labelName = "" := by
  simp only [recognizedLabelNames, List.mem_cons, List.mem_singleton, not_or] at h
  obtain ⟨h1, h2, h3, h4, h5, h6, h7, h8, h9, h10, h11, h12, h13, h14, h15, _⟩ := h
  unfold extractLabelValue
  split
  · exact absurd rfl h1
  · exact absurd rfl h2
  · exact absurd rfl h3
  · exact absurd rfl h4
  · exact absurd rfl h5
  · exact absurd rfl h6
  · exact absurd rfl h7
  · exact absurd rfl h8
  · exact absurd rfl h9
  · exact absurd rfl h10
  · exact absurd rfl h11
  · exact absurd rfl h12
  · exact absurd rfl h13
  · exact absurd rfl h14
  · exact absurd rfl h15
  · rfl

/-! ### `strings.Join(values, "|")` and its injectivity away from the separator -/

/-- Go `strings.Join`: elements concatenated with `sep` in between. -/
def stringsJoin (sep : String) : List String → String
  | [] => ""
  | [s] => s
  | s :: rest => s ++ sep ++ stringsJoin sep rest

/-- `stringsJoin "|"` at the level of character lists. -/
def charsJoin : List (List Char) → List Char
  | [] => []
  | [x] => x
  | x :: y :: rest => x ++ '|' :: charsJoin (y :: rest)

theorem string_data_append (a b : String) : (a ++ b).data = a.data ++ b.data := by
  cases a; cases b; rfl

theorem stringsJoin_data (l : List String) :
    (stringsJoin "|" l).data = charsJoin (l.map String.data) := by
  match l with
  | [] => rfl
  | [s] => rfl
  | s :: t :: rest =>
    show ((s ++ "|") ++ stringsJoin "|" (t :: rest)).data = _
    rw [string_data_append, string_data_append, stringsJoin_data (t :: rest)]
    simp [charsJoin]

/-- Splitting a separator-tagged concatenation: if neither `a` nor `b` contains
the separator character, the decomposition around the first separator is unique. -/
theorem append_bar_inj (a : List Char) :
    ∀ (b s t : List Char), '|' ∉ a → '|' ∉ b →
      a ++ '|' :: s = b ++ '|' :: t → a = b ∧ s = t := by
  induction a with
  | nil =>
    intro b s t _ hb heq
    cases b with
    | nil => simpa using heq
    | cons c b2 =>
      simp only [List.nil_append, List.cons_append, List.cons.injEq] at heq
      exact absurd (heq.1 ▸ List.mem_cons_self c b2) hb
  | cons c a2 ih =>
    intro b s t ha hb heq
    cases b with
    | nil =>
      simp only [List.cons_append, List.nil_append, List.cons.injEq] at heq
      exact absurd (heq.1 ▸ List.mem_cons_self c a2) ha
    | cons d b2 =>
      simp only [List.cons_append, List.cons.injEq] at heq
      obtain ⟨hcd, hrest⟩ := heq
      have ha2 : '|' ∉ a2 := fun hm => ha (List.mem_cons_of_mem c hm)
      have hb2 : '|' ∉ b2 := fun hm => hb (List.mem_cons_of_mem d hm)
      obtain ⟨h1, h2⟩ := ih b2 s t ha2 hb2 hrest
      exact ⟨by rw [hcd, h1], h2⟩

theorem charsJoin_inj (xs : List (List Char)) :
    ∀ ys : List (List Char), xs.length = ys.length →
      (∀ x ∈ xs, '|' ∉ x) → (∀ y ∈ ys, '|' ∉ y) →
      charsJoin xs = charsJoin ys → xs = ys := by
  match xs with
  | [] =>
    intro ys hlen _ _ _
    exact (List.length_eq_zero.mp hlen.symm).symm ▸ rfl
  | [x] =>
    intro ys hlen hx hy heq
    match ys with
    | [y] => simpa [charsJoin] using heq
  | x :: x2 :: xs2 =>
    intro ys hlen hx hy heq
    match ys with
    | y :: y2 :: ys2 =>
      have hxbar : '|' ∉ x := hx x (List.mem_cons_self _ _)
      have hybar : '|' ∉ y := hy y (List.mem_cons_self _ _)
      simp only [charsJoin] at heq
      obtain ⟨h1, h2⟩ := append_bar_inj x y (charsJoin (x2 :: xs2)) (charsJoin (y2 :: ys2))
        hxbar hybar heq
      have hlen2 : (x2 :: xs2).length = (y2 :: ys2).length := by
        simpa using hlen
      have hx2 : ∀ a ∈ x2 :: xs2, '|' ∉ a := fun a ha => hx a (List.mem_cons_of_mem _ ha)
      have hy2 : ∀ a ∈ y2 :: ys2, '|' ∉ a := fun a ha => hy a (List.mem_cons_of_mem _ ha)
      have := charsJoin_inj (x2 :: xs2) (y2 :: ys2) hlen2 hx2 hy2 h2
      rw [h1, this]

/-- Injectivity of the Go `strings.Join(values, "|")` key on value lists of
equal length none of whose elements contains the separator character. -/
theorem stringsJoin_inj (xs ys : List String) (hlen : xs.length = ys.length)
    (hx : ∀ x ∈ xs, '|' ∉ x.data) (hy : ∀ y ∈ ys, '|' ∉ y.data)
    (heq : stringsJoin "|" xs = stringsJoin "|" ys) : xs = ys := by
  have hdata : charsJoin (xs.map String.data) = charsJoin (ys.map String.data) := by
    rw [← stringsJoin_data, ← stringsJoin_data, heq]
  have hlen2 : (xs.map String.data).length = (ys.map String.data).length := by
    simpa using hlen
  have hx2 : ∀ a ∈ xs.map String.data, '|' ∉ a := by
    intro a ha
    rcases List.mem_map.mp ha with ⟨x, hxmem, rfl⟩
    exact hx x hxmem
  have hy2 : ∀ a ∈ ys.map String.data, '|' ∉ a := by
    intro a ha
    rcases List.mem_map.mp ha with ⟨y, hymem, rfl⟩
    exact hy y hymem
  have hmap := charsJoin_inj (xs.map String.data) (ys.map String.data) hlen2 hx2 hy2 hdata
  have : Function.Injective String.data := fun a b hab => by
    cases a; cases b; exact congrArg String.mk hab
  exact List.map_injective_iff.mpr this hmap

/-! ### The aggregation loop of `Collect` (cost_collector.go lines 204-225)

`Collect` folds over `c.lastRecords`, keying a Go map by
`strings.Join(labelValues, "|")`; on each record it overwrites the stored
label values and accumulates the record's cost with
`existing.cost += record.Cost`.  The accumulated cost is a Go `float64`
and `+=` is IEEE-754 addition, which is neither associative nor
commutative, so the loop is embedded parametrically in the cost carrier
`F`, the accumulation operation `add` and the readout `costOf`, with NO
algebraic law assumed about `add`: instantiating `F` with IEEE-754
doubles, `add` with float addition, `zero` with `0.0` (the Go zero value)
and `costOf` with the record's cost yields exactly the Go loop.  Only
statements that hold for every such instantiation are faithful to the
program; value-level order-invariance additionally needs `add` commutative
and associative, which exact arithmetic has and float64 lacks. -/

/-- The key `Collect` computes for a record: `strings.Join(extractLabelValues(...), "|")`. -/
def recKey (labelNames : List String) (record : CostRecord) : String :=
  stringsJoin "|" (extractLabelValues record labelNames)

/-- One iteration of the `for _, record := range c.lastRecords` loop:
read `costs[key]` (zero value when absent), overwrite the label values,
`existing.cost += record.Cost`, store back. -/
def collectStep {F : Type} (add : F → F → F) (zero : F) (costOf : CostRecord → F)
    (labelNames : List String) (costs : List (String × List String × F))
    (record : CostRecord) : List (String × List String × F) :=
  let labelValues := extractLabelValues record labelNames
  let key := stringsJoin "|" labelValues
  let existing := (goLookup costs key).getD ([], zero)
  goInsert costs key (labelValues, add existing.2 (costOf record))

/-- The aggregated `costs` map that `Collect` exports one metric per entry of. -/
def collectAggregate {F : Type} (add : F → F → F) (zero : F) (costOf : CostRecord → F)
    (records : List CostRecord) (labelNames : List String) :
    List (String × List String × F) :=
  records.foldl (collectStep add zero costOf labelNames) []

theorem collect_fold_lookup {F : Type} (add : F → F → F) (zero : F)
    (costOf : CostRecord → F) (labelNames : List String) (records : List CostRecord) :
    ∀ (costs : List (String × List String × F)) (key : String),
      goLookup (records.foldl (collectStep add zero costOf labelNames) costs) key =
        match (records.filter fun r => recKey labelNames r = key).getLast? with
        | none => goLookup costs key
        | some rl => some (extractLabelValues rl labelNames,
            ((records.filter fun r => recKey labelNames r = key).map costOf).foldl add
              ((goLookup costs key).getD ([], zero)).2) := by
  induction records with
  | nil => intro costs key; rfl
  | cons r rest ih =>
    intro costs key
    rw [List.foldl_cons, ih]
    by_cases hk : recKey labelNames r = key
    · have hstep : goLookup (collectStep add zero costOf labelNames costs r) key =
          some (extractLabelValues r labelNames,
            add ((goLookup costs key).getD ([], zero)).2 (costOf r)) := by
        unfold collectStep
        rw [← hk]
        exact goLookup_goInsert_self costs (recKey labelNames r) _
      have hfilter : ((r :: rest).filter fun x => recKey labelNames x = key) =
          r :: (rest.filter fun x => recKey labelNames x = key) := by
        simp [List.filter_cons, hk]
      rw [hfilter]
      cases hlast : (rest.filter fun x => recKey labelNames x = key).getLast? with
      | none =>
        have hempty : (rest.filter fun x => recKey labelNames x = key) = [] :=
          List.getLast?_eq_none_iff.mp hlast
        rw [hempty]
        simp [hstep, hempty]
      | some rl =>
        have hne : (rest.filter fun x => recKey labelNames x = key) ≠ [] := by
          intro hcontra
          rw [hcontra] at hlast
          exact Option.noConfusion hlast
        have hcons : (r :: (rest.filter fun x => recKey labelNames x = key)).getLast? =
            some rl := by
          rw [List.getLast?_cons, hlast]
          cases hfl : (rest.filter fun x => recKey labelNames x = key) with
          | nil => exact absurd hfl hne
          | cons a l => simp [hfl] at hlast; simp [List.getLast?_cons, ← hfl, hlast]
        rw [hcons]
        dsimp only
        rw [hstep]
        simp only [Option.getD_some, List.map_cons, List.foldl_cons]
    · have hstep : goLookup (collectStep add zero costOf labelNames costs r) key =
          goLookup costs key := by
        unfold collectStep
        exact goLookup_goInsert_ne costs (recKey labelNames r) key _ (Ne.symm hk)
      have hfilter : ((r :: rest).filter fun x => recKey labelNames x = key) =
          rest.filter fun x => recKey labelNames x = key := by
        simp [List.filter_cons, hk]
      rw [hfilter, hstep]

/-- Lookup characterization of the aggregation: each key maps to the label
values of the last matching record together with the left-to-right
accumulation, in input order, of the matching records' costs. -/
theorem collectAggregate_lookup {F : Type} (add : F → F → F) (zero : F)
    (costOf : CostRecord → F) (records : List CostRecord) (labelNames : List String)
    (key : String) :
    goLookup (collectAggregate add zero costOf records labelNames) key =
      match (records.filter fun r => recKey labelNames r = key).getLast? with
      | none => none
      | some rl => some (extractLabelValues rl labelNames,
          ((records.filter fun r => recKey labelNames r = key).map costOf).foldl add
            zero) := by
  unfold collectAggregate
  rw [collect_fold_lookup]
  cases (records.filter fun r => recKey labelNames r = key).getLast? with
  | none => rfl
  | some rl => simp [goLookup]

theorem collectAggregate_keys_nodup {F : Type} (add : F → F → F) (zero : F)
    (costOf : CostRecord → F) (records : List CostRecord) (labelNames : List String) :
    ((collectAggregate add zero costOf records labelNames).map Prod.fst).Nodup := by
  unfold collectAggregate
  have h : ∀ costs : List (String × List String × F), (costs.map Prod.fst).Nodup →
      ((records.foldl (collectStep add zero costOf labelNames) costs).map
        Prod.fst).Nodup := by
    induction records with
    | nil => intro costs hc; exact hc
    | cons r rest ih =>
      intro costs hc
      rw [List.foldl_cons]
      exact ih _ (goInsert_keys_nodup costs _ _ hc)
  exact h [] (by simp)

/-- Every entry's key is the `"|"`-join of its stored label values. -/
theorem collectAggregate_key_coherent {F : Type} (add : F → F → F) (zero : F)
    (costOf : CostRecord → F) (records : List CostRecord) (labelNames : List String) :
    ∀ e ∈ collectAggregate add zero costOf records labelNames,
      e.1 = stringsJoin "|" e.2.1 := by
  unfold collectAggregate
  have h : ∀ costs : List (String × List String × F),
      (∀ e ∈ costs, e.1 = stringsJoin "|" e.2.1) →
      ∀ e ∈ records.foldl (collectStep add zero costOf labelNames) costs,
        e.1 = stringsJoin "|" e.2.1 := by
    induction records with
    | nil => intro costs hc; exact hc
    | cons r rest ih =>
      intro costs hc
      rw [List.foldl_cons]
      apply ih
      intro e he
      rcases mem_goInsert costs _ _ e he with hcase | hcase
      · rw [hcase]
      · exact hc e hcase
  exact h [] (by simp)

/-- With nodup keys, two entries of the map sharing a key are one entry. -/
theorem eq_of_mem_of_fst_eq {β : Type} (m : List (String × β))
    (h : (m.map Prod.fst).Nodup) :
    ∀ e1 ∈ m, ∀ e2 ∈ m, e1.1 = e2.1 → e1 = e2 := by
  induction m with
  | nil => intro e1 he1; exact absurd he1 (List.not_mem_nil e1)
  | cons hd tl ih =>
    simp only [List.map_cons, List.nodup_cons] at h
    intro e1 he1 e2 he2 hfst
    rcases List.mem_cons.mp he1 with h1 | h1 <;> rcases List.mem_cons.mp he2 with h2 | h2
    · rw [h1, h2]
    · exact absurd (List.mem_map.mpr ⟨e2, h2, by rw [← hfst, h1]⟩) h.1
    · exact absurd (List.mem_map.mpr ⟨e1, h1, by rw [hfst, h2]⟩) h.1
    · exact ih h.2 e1 h1 e2 h2 hfst

/-! ### `QueryCosts` (cost_client.go lines 73-113)

The per-subscription outcome is abstracted as a function
`query : Subscription → Except String (List CostRecord)` (the result of
`queryCostsForSubscription`); `QueryCosts` loops over the configured
subscriptions, collecting rows of successes and messages of failures, and
errors only when the error list is non-empty and the merged row list is empty. -/

/-- `fmt.Errorf("subscription %s: %w", sub.Name, err)`. -/
def subErrMsg (sub : Subscription) (e : String) : String :=
  "subscription " ++ sub.name ++ ": " ++ e

/-- The `all %d subscriptions failed ...` message (the `%v` rendering of the
error slice is abstracted as a space-separated bracketed list). -/
def allFailedMsg (n : Nat) (errs : List String) : String :=
  "all " ++ toString n ++ " subscriptions failed (check Azure credentials and permissions): ["
    ++ String.intercalate " " errs ++ "]"

/-- The accumulation loop of `QueryCosts` followed by its error policy. -/
def QueryCosts (subs : List Subscription)
    (query : Subscription → Except String (List CostRecord)) :
    Except String (List CostRecord) :=
  let acc := subs.foldl
    (fun (acc : List CostRecord × List String) sub =>
      match query sub with
      | Except.error e => (acc.1, acc.2 ++ [subErrMsg sub e])
      | Except.ok records => (acc.1 ++ records, acc.2))
    ([], [])
  if acc.2 ≠ [] ∧ acc.1 = [] then Except.error (allFailedMsg subs.length acc.2)
  else Except.ok acc.1

/-- The rows contributed by the succeeding subscriptions, in order. -/
def mergedRecords (subs : List Subscription)
    (query : Subscription → Except String (List CostRecord)) : List CostRecord :=
  (subs.map fun sub =>
    match query sub with
    | Except.ok records => records
    | Except.error _ => []).flatten

/-- The collected failure messages, in subscription order. -/
def failMsgs (subs : List Subscription)
    (query : Subscription → Except String (List CostRecord)) : List String :=
  subs.filterMap fun sub =>
    match query sub with
    | Except.error e => some (subErrMsg sub e)
    | Except.ok _ => none

theorem queryCosts_fold (subs : List Subscription)
    (query : Subscription → Except String (List CostRecord)) :
    ∀ (a : List CostRecord) (b : List String),
      subs.foldl
        (fun (acc : List CostRecord × List String) sub =>
          match query sub with
          | Except.error e => (acc.1, acc.2 ++ [subErrMsg sub e])
          | Except.ok records => (acc.1 ++ records, acc.2))
        (a, b) = (a ++ mergedRecords subs query, b ++ failMsgs subs query) := by
  induction subs with
  | nil => intro a b; simp [mergedRecords, failMsgs]
  | cons sub rest ih =>
    intro a b
    rw [List.foldl_cons]
    cases hq : query sub with
    | error e =>
      simp only [hq]
      rw [ih]
      simp [mergedRecords, failMsgs, hq, List.filterMap_cons]
    | ok records =>
      simp only [hq]
      rw [ih]
      simp [mergedRecords, failMsgs, hq, List.filterMap_cons]

/-- Closed form of `QueryCosts`. -/
theorem queryCosts_eq (subs : List Subscription)
    (query : Subscription → Except String (List CostRecord)) :
    QueryCosts subs query =
      if failMsgs subs query ≠ [] ∧ mergedRecords subs query = [] then
        Except.error (allFailedMsg subs.length (failMsgs subs query))
      else Except.ok (mergedRecords subs query) := by
  unfold QueryCosts
  rw [queryCosts_fold subs query [] []]
  simp

theorem failMsgs_ne_nil_iff (subs : List Subscription)
    (query : Subscription → Except String (List CostRecord)) :
    failMsgs subs query ≠ [] ↔ ∃ sub ∈ subs, ∃ e, query sub = Except.error e := by
  induction subs with
  | nil => simp [failMsgs]
  | cons sub rest ih =>
    unfold failMsgs
    rw [List.filterMap_cons]
    cases hq : query sub with
    | error e =>
      simp only [hq]
      constructor
      · intro _
        exact ⟨sub, List.mem_cons_self _ _, e, hq⟩
      · intro _
        exact List.cons_ne_nil _ _
    | ok records =>
      simp only [hq]
      rw [show (List.filterMap (fun sub =>
          match query sub with
          | Except.error e => some (subErrMsg sub e)
          | Except.ok _ => none) rest) = failMsgs rest query from rfl, ih]
      constructor
      · rintro ⟨s, hs, e, he⟩
        exact ⟨s, List.mem_cons_of_mem _ hs, e, he⟩
      · rintro ⟨s, hs, e, he⟩
        rcases List.mem_cons.mp hs with rfl | hs2
        · rw [hq] at he; exact Except.noConfusion he
        · exact ⟨s, hs2, e, he⟩

/-! ### Per-subscription retry (`queryCostsForSubscription`, cost_client.go 116-145)

`backoff.Retry` with an `ExponentialBackOff` is embedded as a fuel-indexed
loop: `attempt n` is the outcome of the `n`-th call to
`queryCostsForSubscriptionInternal`, and `interval n` is the (randomized,
hence abstract) time in seconds that passes between attempt `n` and attempt
`n+1`; the library stops retrying once the elapsed time would exceed
`MaxElapsedTime`, returning the last error.  The fuel `MaxRetryElapsedTime + 1`
is sufficient for every positive interval sequence. -/

/-- `MaxRetryElapsedTime = 2 * time.Minute`, in seconds. -/
def MaxRetryElapsedTime : Nat := 120

/-- `backoff.Retry(operation, bo)`: run the operation; on error, stop with
that error if the next backoff would exceed the elapsed-time budget,
otherwise sleep and retry. -/
def backoffRetry {α : Type} (op : Nat → Except String α) (interval : Nat → Nat)
    (maxElapsed : Nat) : Nat → Nat → Nat → Except String α
  | 0, n, _ => op n
  | fuel+1, n, elapsed =>
    match op n with
    | Except.ok a => Except.ok a
    | Except.error e =>
      if maxElapsed < elapsed + interval n then Except.error e
      else backoffRetry op interval maxElapsed fuel (n+1) (elapsed + interval n)

/-- `fmt.Errorf("subscription %s (ID: %s) failed after retries: %w", ...)`. -/
def terminalMsg (sub : Subscription) (e : String) : String :=
  "subscription " ++ sub.name ++ " (ID: " ++ sub.id ++ ") failed after retries: " ++ e

/-- `queryCostsForSubscription`: retry with exponential backoff, wrapping a
final failure in a terminal error naming the subscription. -/
def queryCostsForSubscription (sub : Subscription)
    (attempt : Nat → Except String (List CostRecord)) (interval : Nat → Nat) :
    Except String (List CostRecord) :=
  match backoffRetry attempt interval MaxRetryElapsedTime (MaxRetryElapsedTime + 1) 0 0 with
  | Except.ok records => Except.ok records
  | Except.error e => Except.error (terminalMsg sub e)

/-- Total backoff time of attempts `n, n+1, ..., n+m-1`. -/
def sumIntervalsFrom (interval : Nat → Nat) (n : Nat) : Nat → Nat
  | 0 => 0
  | m+1 => interval n + sumIntervalsFrom interval (n+1) m

/-! ### Collector snapshot state (`refresh` and accessors, cost_collector.go) -/

/-- `MaxRecordsToCache` (cost_collector.go line 20). -/
def MaxRecordsToCache : Nat := 100000

/-- The mutable state of `CostCollector` guarded by `mu` (time stamps and
durations are abstract naturals; the scrape-error counter is a natural). -/
structure CollectorState where
  lastRecords : List CostRecord
  lastError : Option String
  lastScrape : Nat
  lastScrapeDuration : Nat
  isReady : Bool
  scrapeErrors : Nat
deriving DecidableEq

/-- The collector state at startup: no records, no error, not ready. -/
def initialCollectorState : CollectorState :=
  { lastRecords := [], lastError := none, lastScrape := 0, lastScrapeDuration := 0
    isReady := false, scrapeErrors := 0 }

/-- The memory-limit enforcement of `refresh` (cost_collector.go lines 320-326):
`records = records[:MaxRecordsToCache]` when over the cap. -/
def truncateRecords (records : List CostRecord) : List CostRecord :=
  if MaxRecordsToCache < records.length then records.take MaxRecordsToCache else records

/-- `refresh` (cost_collector.go lines 312-348) given the provider's
`(records, err)` result: truncate, store everything, then either count the
error and drop readiness, or mark ready. -/
def refresh (s : CollectorState) (records0 : List CostRecord) (err : Option String)
    (now duration : Nat) : CollectorState :=
  let records := truncateRecords records0
  match err with
  | some e =>
    { s with lastScrape := now, lastScrapeDuration := duration, lastError := some e
             lastRecords := records, scrapeErrors := s.scrapeErrors + 1, isReady := false }
  | none =>
    { s with lastScrape := now, lastScrapeDuration := duration, lastError := none
             lastRecords := records, isReady := true }

/-- One refresh cycle: `QueryCosts` returns `(rows, nil)` or `(nil, err)`. -/
def refreshCycle (s : CollectorState) (result : Except String (List CostRecord))
    (now duration : Nat) : CollectorState :=
  match result with
  | Except.ok records => refresh s records none now duration
  | Except.error e => refresh s [] (some e) now duration

/-- `RecordCount` (cost_collector.go lines 372-376). -/
def RecordCount (s : CollectorState) : Nat := s.lastRecords.length

/-- `IsReady` (cost_collector.go lines 351-355). -/
def IsReady (s : CollectorState) : Bool := s.isReady

/-- `LastError` (cost_collector.go lines 358-362). -/
def LastError (s : CollectorState) : Option String := s.lastError

/-! ### The background-refresh scheduler (`StartBackgroundRefresh`, lines 284-309)

A labelled transition system over the `refreshStarted` atomic flag and the
set of live refresh workers.  `StartBackgroundRefresh` CAS-acquires the flag
(a second call while it is set is a no-op), runs the initial refresh
synchronously, then loops: each tick runs `refresh` to completion before the
next receive; on context cancellation the goroutine exits and clears the
flag.  A worker is therefore in one of three phases. -/

inductive WorkerPhase where
  | initialRefresh : WorkerPhase
  | loopIdle : WorkerPhase
  | loopRefreshing : WorkerPhase
deriving DecidableEq

structure SchedulerState where
  refreshStarted : Bool
  workers : List WorkerPhase
deriving DecidableEq

/-- The transitions of the scheduler. -/
inductive SchedulerStep : SchedulerState → SchedulerState → Prop where
  | startDenied (s : SchedulerState) : s.refreshStarted = true → SchedulerStep s s
  | startAcquired (s : SchedulerState) : s.refreshStarted = false →
      SchedulerStep s ⟨true, WorkerPhase.initialRefresh :: s.workers⟩
  | initialDone (s : SchedulerState) (l1 l2 : List WorkerPhase) :
      s.workers = l1 ++ WorkerPhase.initialRefresh :: l2 →
      SchedulerStep s ⟨s.refreshStarted, l1 ++ WorkerPhase.loopIdle :: l2⟩
  | tickFire (s : SchedulerState) (l1 l2 : List WorkerPhase) :
      s.workers = l1 ++ WorkerPhase.loopIdle :: l2 →
      SchedulerStep s ⟨s.refreshStarted, l1 ++ WorkerPhase.loopRefreshing :: l2⟩
  | refreshDone (s : SchedulerState) (l1 l2 : List WorkerPhase) :
      s.workers = l1 ++ WorkerPhase.loopRefreshing :: l2 →
      SchedulerStep s ⟨s.refreshStarted, l1 ++ WorkerPhase.loopIdle :: l2⟩
  | ctxDone (s : SchedulerState) (l1 l2 : List WorkerPhase) :
      s.workers = l1 ++ WorkerPhase.loopIdle :: l2 →
      SchedulerStep s ⟨false, l1 ++ l2⟩

/-- The state at process start: flag clear, no workers. -/
def initSchedulerState : SchedulerState := ⟨false, []⟩

inductive SchedulerReachable : SchedulerState → Prop where
  | init : SchedulerReachable initSchedulerState
  | step {s s2 : SchedulerState} :
      SchedulerReachable s → SchedulerStep s s2 → SchedulerReachable s2

/-- A worker currently executing a refresh cycle (provider call sequence). -/
def refreshingPhase : WorkerPhase → Bool
  | WorkerPhase.initialRefresh => true
  | WorkerPhase.loopRefreshing => true
  | WorkerPhase.loopIdle => false

/-- Number of refresh cycles in flight. -/
def inFlight (s : SchedulerState) : Nat := s.workers.countP refreshingPhase

theorem scheduler_step_inv {s s2 : SchedulerState} (hstep : SchedulerStep s s2)
    (ih : s.workers.length ≤ 1 ∧ (s.workers ≠ [] → s.refreshStarted = true)) :
    s2.workers.length ≤ 1 ∧ (s2.workers ≠ [] → s2.refreshStarted = true) := by
  cases hstep with
  | startDenied hflag => exact ih
  | startAcquired hflag =>
    have hempty : s.workers = [] := by
      by_contra hne
      rw [ih.2 hne] at hflag
      exact Bool.noConfusion hflag
    exact ⟨by simp [hempty], fun _ => rfl⟩
  | initialDone l1 l2 heq =>
    refine ⟨?_, fun _ => ih.2 (by rw [heq]; simp)⟩
    have h1 := ih.1
    rw [heq] at h1
    simpa using h1
  | tickFire l1 l2 heq =>
    refine ⟨?_, fun _ => ih.2 (by rw [heq]; simp)⟩
    have h1 := ih.1
    rw [heq] at h1
    simpa using h1
  | refreshDone l1 l2 heq =>
    refine ⟨?_, fun _ => ih.2 (by rw [heq]; simp)⟩
    have h1 := ih.1
    rw [heq] at h1
    simpa using h1
  | ctxDone l1 l2 heq =>
    have hlen := ih.1
    rw [heq] at hlen
    simp only [List.length_append, List.length_cons] at hlen
    have hl1 : l1.length = 0 := by omega
    have hl2 : l2.length = 0 := by omega
    rw [List.length_eq_zero.mp hl1, List.length_eq_zero.mp hl2]
    exact ⟨by simp, fun hc => absurd rfl hc⟩

/-- The single-flight invariant of the scheduler state. -/
theorem scheduler_inv (s : SchedulerState) (h : SchedulerReachable s) :
    s.workers.length ≤ 1 ∧ (s.workers ≠ [] → s.refreshStarted = true) := by
  induction h with
  | init => exact ⟨Nat.zero_le 1, fun hc => absurd rfl hc⟩
  | step hr hstep ih => exact scheduler_step_inv hstep ih

/-! ### Azure response parsing (cost_client.go lines 223-404) -/

/-- A Go `interface{}` cell of an Azure query-result row.  `float64` values
are modelled as exact rationals; their `fmt` rendering is abstract. -/
inductive CellValue where
  | str : String → CellValue
  | int : Int → CellValue
  | num : ℚ → CellValue
  | boolean : Bool → CellValue
  | nil : CellValue
deriving DecidableEq

/-- `fmt.Sprintf("%v", value)` (numeric formatting abstracted). -/
def fmtV : CellValue → String
  | CellValue.str s => s
  | CellValue.int n => toString n
  | CellValue.num q => toString q
  | CellValue.boolean b => if b then "true" else "false"
  | CellValue.nil => "<nil>"

/-- `armcostmanagement.QueryColumn`: `Name` and `Type` pointers (the parser
never reads `Type`). -/
structure QueryColumn where
  name : Option String
  colType : Option String
deriving DecidableEq

structure QueryProperties where
  columns : List QueryColumn
  rows : Option (List (List CellValue))

structure QueryResult where
  properties : Option QueryProperties

/-- `buildColumnMap` (lines 223-231): name → index, later columns win. -/
def buildColumnMap (columns : List QueryColumn) : List (String × Nat) :=
  columns.enum.foldl
    (fun m p =>
      match p.2.name with
      | some n => goInsert m n p.1
      | none => m)
    []

/-- `getStringFromRow` (lines 234-242). -/
def getStringFromRow (row : List CellValue) (columnMap : List (String × Nat))
    (columnName : String) : String :=
  match goLookup columnMap columnName with
  | some idx =>
    match row[idx]? with
    | some cell =>
      let value := fmtV cell
      if value ≠ "" ∧ value ≠ "<nil>" then value else ""
    | none => ""
  | none => ""

/-- `parseCost` (lines 245-256): float64/int/int64 pass through, rest 0. -/
def parseCost : CellValue → ℚ
  | CellValue.num q => q
  | CellValue.int n => (n : ℚ)
  | _ => 0

/-- `formatDateValue` (lines 259-270); `%.0f` on a float is abstracted as
rounding to the nearest integer. -/
def formatDateValue : CellValue → String
  | CellValue.int n => toString n
  | CellValue.num q => toString (round q)
  | CellValue.str s => s
  | v => fmtV v

/-- `extractDigits` (lines 273-281). -/
def extractDigits (s : String) : String := String.mk (s.data.filter Char.isDigit)

/-- `formatYYYYMMDD` (lines 284-292). -/
def formatYYYYMMDD (dateDigits : String) : String :=
  if 8 ≤ dateDigits.length then
    dateDigits.take 4 ++ "-" ++ ((dateDigits.drop 4).take 2) ++ "-" ++ ((dateDigits.drop 6).take 2)
  else dateDigits

/-- `parseDate` (lines 295-299). -/
def parseDate (v : CellValue) : String := formatYYYYMMDD (extractDigits (formatDateValue v))

/-- `extractResourceInfo` (lines 302-319). -/
def extractResourceInfo (row : List CellValue) (columnMap : List (String × Nat)) :
    String × String :=
  match goLookup columnMap "ResourceId" with
  | some idx =>
    match row[idx]? with
    | some cell =>
      let resourceId := fmtV cell
      if resourceId ≠ "" ∧ resourceId ≠ "<nil>" then
        (resourceId, (resourceId.splitOn "/").getLastD "")
      else (resourceId, "")
    | none => ("", "")
  | none => ("", "")

/-- `extractService` (lines 322-335). -/
def extractService (row : List CellValue) (columnMap : List (String × Nat)) : String :=
  if getStringFromRow row columnMap "ServiceName" ≠ "" then
    getStringFromRow row columnMap "ServiceName"
  else if getStringFromRow row columnMap "MeterCategory" ≠ "" then
    getStringFromRow row columnMap "MeterCategory"
  else "Unknown"

/-- `extractResourceGroup` (lines 338-343). -/
def extractResourceGroup (row : List CellValue) (columnMap : List (String × Nat)) : String :=
  if getStringFromRow row columnMap "ResourceGroup" ≠ "" then
    getStringFromRow row columnMap "ResourceGroup"
  else getStringFromRow row columnMap "ResourceGroupName"

/-- `parseRow` (lines 346-371).  The caller guarantees `costIdx` and
`dateIdx` are in bounds; the accesses are modelled with a default. -/
def parseRow (row : List CellValue) (columnMap : List (String × Nat))
    (costIdx dateIdx : Nat) (sub : Subscription) (currency : String) : CostRecord :=
  let ri := extractResourceInfo row columnMap
  { date := parseDate (row.getD dateIdx CellValue.nil)
    provider := "azure"
    accountID := sub.id
    accountName := sub.name
    service := extractService row columnMap
    resourceType := getStringFromRow row columnMap "ResourceType"
    resourceGroup := extractResourceGroup row columnMap
    resourceLocation := getStringFromRow row columnMap "ResourceLocation"
    resourceID := ri.1
    resourceName := ri.2
    meterCategory := getStringFromRow row columnMap "MeterCategory"
    meterSubCategory := getStringFromRow row columnMap "MeterSubCategory"
    chargeType := getStringFromRow row columnMap "ChargeType"
    pricingModel := getStringFromRow row columnMap "PricingModel"
    cost := parseCost (row.getD costIdx CellValue.nil)
    currency := currency }

/-- `parseResponse` (lines 374-404): nil guards, required columns, and the
row loop that skips rows too short to index `Cost` or `UsageDate`. -/
def parseResponse (result : QueryResult) (sub : Subscription) (currency : String) :
    List CostRecord :=
  match result.properties with
  | none => []
  | some props =>
    match props.rows with
    | none => []
    | some rows =>
      let columnMap := buildColumnMap props.columns
      match goLookup columnMap "Cost", goLookup columnMap "UsageDate" with
      | some costIdx, some dateIdx =>
        (rows.filter fun row => costIdx < row.length ∧ dateIdx < row.length).map
          (fun row => parseRow row columnMap costIdx dateIdx sub currency)
      | some _, none => []
      | none, _ => []

/-! ### Supporting lemmas for the aggregation claims -/

theorem list_getLast?_mem {α : Type} (l : List α) (a : α) (h : l.getLast? = some a) :
    a ∈ l := by
  induction l with
  | nil => exact Option.noConfusion h
  | cons x xs ih =>
    cases hx : xs with
    | nil =>
      rw [hx] at h
      rw [List.getLast?_singleton] at h
      rw [Option.some.injEq] at h
      rw [h]
      exact List.mem_cons_self _ _
    | cons y ys =>
      rw [hx] at h
      rw [List.getLast?_cons_cons] at h
      rw [← hx] at h
      exact List.mem_cons_of_mem _ (hx ▸ ih h)

theorem goLookup_eq_some_of_mem {β : Type} (m : List (String × β))
    (h : (m.map Prod.fst).Nodup) (e : String × β) (he : e ∈ m) :
    goLookup m e.1 = some e.2 := by
  induction m with
  | nil => exact absurd he (List.not_mem_nil e)
  | cons hd tl ih =>
    obtain ⟨k0, v0⟩ := hd
    simp only [List.map_cons, List.nodup_cons] at h
    rcases List.mem_cons.mp he with rfl | hmem
    · simp [goLookup]
    · have hne : e.1 ≠ k0 := by
        intro hcontra
        exact h.1 (List.mem_map.mpr ⟨e, hmem, hcontra⟩)
      simp only [goLookup, if_neg hne]
      exact ih h.2 hmem

theorem mem_of_goLookup_eq_some {β : Type} (m : List (String × β)) (k : String) (v : β)
    (h : goLookup m k = some v) : (k, v) ∈ m := by
  induction m with
  | nil => exact Option.noConfusion h
  | cons hd tl ih =>
    obtain ⟨k0, v0⟩ := hd
    simp only [goLookup] at h
    split at h
    case isTrue hk =>
      injection h with hv
      exact List.mem_cons.mpr (Or.inl (by rw [hk, ← hv]))
    case isFalse hk =>
      exact List.mem_cons_of_mem _ (ih h)

theorem filter_fst_eq_singleton {β : Type} (m : List (String × β)) (k : String) (v : β)
    (hnodup : (m.map Prod.fst).Nodup) (hmem : (k, v) ∈ m) :
    m.filter (fun e => e.1 = k) = [(k, v)] := by
  induction m with
  | nil => exact absurd hmem (List.not_mem_nil _)
  | cons hd tl ih =>
    obtain ⟨k0, v0⟩ := hd
    simp only [List.map_cons, List.nodup_cons] at hnodup
    rcases List.mem_cons.mp hmem with heq | hmem2
    · have h1 : k = k0 := congrArg Prod.fst heq
      have h2 : v = v0 := congrArg Prod.snd heq
      subst h1
      subst h2
      have hrest : tl.filter (fun e => e.1 = k) = [] := by
        rw [List.filter_eq_nil_iff]
        intro e hemem
        simp only [decide_eq_true_eq]
        intro hcontra
        exact hnodup.1 (List.mem_map.mpr ⟨e, hemem, hcontra⟩)
      simp [List.filter_cons, hrest]
    · have hk0 : ¬((k0 : String) = k) := by
        intro hcontra
        exact hnodup.1 (hcontra ▸ List.mem_map.mpr ⟨(k, v), hmem2, rfl⟩)
      simp only [List.filter_cons, decide_eq_true_eq]
      rw [if_neg hk0]
      exact ih hnodup.2 hmem2

/-- Records whose keys agree have equal extracted label-value tuples, provided
neither tuple contains the separator character. -/
theorem extract_eq_of_recKey_eq (names : List String) (r1 r2 : CostRecord)
    (h1 : ∀ v ∈ extractLabelValues r1 names, '|' ∉ v.data)
    (h2 : ∀ v ∈ extractLabelValues r2 names, '|' ∉ v.data)
    (hkey : recKey names r1 = recKey names r2) :
    extractLabelValues r1 names = extractLabelValues r2 names := by
  apply stringsJoin_inj _ _ _ h1 h2 hkey
  simp [extractLabelValues]

/-- Every entry of the aggregation stores the extracted tuple of some input
record. -/
theorem collectAggregate_mem_shape {F : Type} (add : F → F → F) (zero : F)
    (costOf : CostRecord → F) (records : List CostRecord) (names : List String)
    (e : String × List String × F)
    (he : e ∈ collectAggregate add zero costOf records names) :
    ∃ rl ∈ records, e.2.1 = extractLabelValues rl names := by
  have hnodup := collectAggregate_keys_nodup add zero costOf records names
  have hlook : goLookup (collectAggregate add zero costOf records names) e.1 = some e.2 :=
    goLookup_eq_some_of_mem _ hnodup e he
  rw [collectAggregate_lookup] at hlook
  cases hfl : (records.filter fun r => recKey names r = e.1).getLast? with
  | none =>
    rw [hfl] at hlook
    exact Option.noConfusion hlook
  | some rl =>
    rw [hfl] at hlook
    have hmem : rl ∈ records.filter fun r => recKey names r = e.1 := list_getLast?_mem _ _ hfl
    exact ⟨rl, (List.mem_filter.mp hmem).1,
      (congrArg Prod.fst (Option.some.inj hlook)).symm⟩

/-! ## Claim theorems -/

/-- C3, counterexample: after a successful refresh storing one record, a
cycle-terminal error (all subscriptions failed, so `QueryCosts` returned nil
rows with a non-nil error) does NOT leave the stored records in place: the
stored list is replaced by the empty result, so `RecordCount` drops from 1
to 0, while the error and the not-ready flag are recorded. -/
theorem claim_C3_counterexample :
    RecordCount (refresh initialCollectorState [emptyRecord] none 5 1) = 1 ∧
    RecordCount (refreshCycle (refresh initialCollectorState [emptyRecord] none 5 1)
      (Except.error "all 1 subscriptions failed") 6 1) = 0 ∧
    (refreshCycle (refresh initialCollectorState [emptyRecord] none 5 1)
        (Except.error "all 1 subscriptions failed") 6 1).lastRecords ≠
      (refresh initialCollectorState [emptyRecord] none 5 1).lastRecords ∧
    IsReady (refreshCycle (refresh initialCollectorState [emptyRecord] none 5 1)
      (Except.error "all 1 subscriptions failed") 6 1) = false ∧
    LastError (refreshCycle (refresh initialCollectorState [emptyRecord] none 5 1)
      (Except.error "all 1 subscriptions failed") 6 1) =
        some "all 1 subscriptions failed" := by
  refine ⟨rfl, rfl, by decide, rfl, rfl⟩

/-- C3, amended: a refresh cycle that ends with a cycle-terminal error
(`QueryCosts` returned nil rows and a non-nil error) replaces the stored
records with the cycle's empty result — `RecordCount` becomes 0, regardless
of the previously stored records — while the error is recorded, the
not-ready flag is set, and the error counter is incremented. -/
theorem claim_C3_amended (s : CollectorState) (e : String) (now duration : Nat) :
    (refreshCycle s (Except.error e) now duration).lastRecords = [] ∧
    RecordCount (refreshCycle s (Except.error e) now duration) = 0 ∧
    LastError (refreshCycle s (Except.error e) now duration) = some e ∧
    IsReady (refreshCycle s (Except.error e) now duration) = false ∧
    (refreshCycle s (Except.error e) now duration).scrapeErrors = s.scrapeErrors + 1 :=
  ⟨rfl, rfl, rfl, rfl, rfl⟩

theorem truncateRecords_spec (records : List CostRecord) :
    (truncateRecords records).length ≤ MaxRecordsToCache ∧
    (MaxRecordsToCache < records.length →
      truncateRecords records = records.take MaxRecordsToCache ∧
      (truncateRecords records).length = MaxRecordsToCache) := by
  unfold truncateRecords
  by_cases h : MaxRecordsToCache < records.length
  · rw [if_pos h]
    have hl : (records.take MaxRecordsToCache).length = MaxRecordsToCache := by
      rw [List.length_take]
      omega
    exact ⟨le_of_eq hl, fun _ => ⟨rfl, hl⟩⟩
  · rw [if_neg h]
    exact ⟨by omega, fun hc => absurd hc h⟩

/-- C4: after any refresh cycle the number of stored records never exceeds
`MaxRecordsToCache`; if the provider returned more rows, the stored snapshot
is exactly the `MaxRecordsToCache`-element prefix of them and `RecordCount`
returns exactly `MaxRecordsToCache`. -/
theorem claim_C4_truncation (s : CollectorState) (records : List CostRecord)
    (err : Option String) (now duration : Nat) :
    RecordCount (refresh s records err now duration) ≤ MaxRecordsToCache ∧
    (MaxRecordsToCache < records.length →
      (refresh s records err now duration).lastRecords = records.take MaxRecordsToCache ∧
      RecordCount (refresh s records err now duration) = MaxRecordsToCache) := by
  have hrec : (refresh s records err now duration).lastRecords = truncateRecords records := by
    cases err <;> rfl
  unfold RecordCount
  rw [hrec]
  have h := truncateRecords_spec records
  exact ⟨h.1, fun hlt => ⟨(h.2 hlt).1, (h.2 hlt).2⟩⟩

/-- C4, witness: feeding `MaxRecordsToCache + 1` rows into a refresh leaves
exactly `MaxRecordsToCache` stored records. -/
theorem claim_C4_truncation_witness :
    RecordCount (refresh initialCollectorState
      (List.replicate (MaxRecordsToCache + 1) emptyRecord) none 0 0) = MaxRecordsToCache :=
  ((claim_C4_truncation initialCollectorState
      (List.replicate (MaxRecordsToCache + 1) emptyRecord) none 0 0).2
    (by rw [List.length_replicate]; omega)).2

/-- C5: in every reachable scheduler state at most one refresh cycle is in
flight, and whenever one is in flight the `refreshStarted` flag is set, so
the compare-and-swap guard makes any further `StartBackgroundRefresh`
trigger a no-op (`SchedulerStep.startDenied` is the only start transition
from such a state), never a second concurrent provider call sequence. -/
theorem claim_C5_single_flight (s : SchedulerState) (h : SchedulerReachable s) :
    inFlight s ≤ 1 ∧ (1 ≤ inFlight s → s.refreshStarted = true) := by
  have hinv := scheduler_inv s h
  constructor
  · exact le_trans (List.countP_le_length _) hinv.1
  · intro hge
    apply hinv.2
    intro hcontra
    have hz : inFlight s = 0 := by
      unfold inFlight
      rw [hcontra]
      rfl
    omega

/-- C5, witness: the state reached by one accepted start trigger. -/
theorem claim_C5_single_flight_witness :
    inFlight ⟨true, [WorkerPhase.initialRefresh]⟩ ≤ 1 ∧
    (1 ≤ inFlight ⟨true, [WorkerPhase.initialRefresh]⟩ →
      SchedulerState.refreshStarted ⟨true, [WorkerPhase.initialRefresh]⟩ = true) :=
  claim_C5_single_flight ⟨true, [WorkerPhase.initialRefresh]⟩
    (SchedulerReachable.step SchedulerReachable.init
      (SchedulerStep.startAcquired initSchedulerState rfl))

/-- C6: readiness is exactly the success of the latest refresh cycle — after
a cycle-terminal error `IsReady` is false, and after the next error-free
cycle it is true again, with no reset in between and regardless of any prior
state (readiness is self-healing, not latched). -/
theorem claim_C6_readiness (s : CollectorState)
    (result : Except String (List CostRecord)) (now duration : Nat) :
    IsReady (refreshCycle s result now duration) = result.isOk ∧
    (∀ (e : String) (rows : List CostRecord) (t1 d1 t2 d2 : Nat),
      IsReady (refreshCycle s (Except.error e) t1 d1) = false ∧
      IsReady (refreshCycle (refreshCycle s (Except.error e) t1 d1)
        (Except.ok rows) t2 d2) = true) := by
  refine ⟨?_, fun e rows t1 d1 t2 d2 => ⟨rfl, rfl⟩⟩
  cases result with
  | ok records => rfl
  | error e => rfl

/-- C7: label-value extraction is total, returns one value per requested
label name, and maps every name outside the recognized set to the empty
string. -/
theorem claim_C7_extract (record : CostRecord) (labelNames : List String) :
    (extractLabelValues record labelNames).length = labelNames.length ∧
    (∀ (i : Nat) (name : String), labelNames[i]? = some name →
      name ∉ recognizedLabelNames →
      (extractLabelValues record labelNames)[i]? = some "") := by
  constructor
  · simp [extractLabelValues]
  · intro i name hget hname
    unfold extractLabelValues
    rw [List.getElem?_map, hget]
    simp [extractLabelValue_unrecognized record name hname]

/-- C7, witness: the unrecognized name "tags" yields the empty string. -/
theorem claim_C7_extract_witness :
    (extractLabelValues emptyRecord ["tags"])[0]? = some "" :=
  (claim_C7_extract emptyRecord ["tags"]).2 0 "tags" rfl (by decide)

/-- C9: response parsing is total and never signals an error — nil
`Properties`, nil `Rows`, or a missing required `Cost`/`UsageDate` column
yield an empty record list; rows too short to index those two columns are
skipped; and the output never has more records than there are input rows. -/
theorem claim_C9_parseResponse (result : QueryResult) (sub : Subscription)
    (currency : String) :
    (result.properties = none → parseResponse result sub currency = []) ∧
    (∀ props, result.properties = some props → props.rows = none →
      parseResponse result sub currency = []) ∧
    (∀ props rows, result.properties = some props → props.rows = some rows →
      (goLookup (buildColumnMap props.columns) "Cost" = none ∨
        goLookup (buildColumnMap props.columns) "UsageDate" = none) →
      parseResponse result sub currency = []) ∧
    (∀ props rows costIdx dateIdx, result.properties = some props →
      props.rows = some rows →
      goLookup (buildColumnMap props.columns) "Cost" = some costIdx →
      goLookup (buildColumnMap props.columns) "UsageDate" = some dateIdx →
      (parseResponse result sub currency).length =
        (rows.filter fun row => costIdx < row.length ∧ dateIdx < row.length).length) ∧
    (∀ props rows, result.properties = some props → props.rows = some rows →
      (parseResponse result sub currency).length ≤ rows.length) := by
  refine ⟨?_, ?_, ?_, ?_, ?_⟩
  · intro h
    simp only [parseResponse, h]
  · intro props h hr
    simp only [parseResponse, h, hr]
  · intro props rows h hr hdis
    rcases hdis with hc | hd
    · simp only [parseResponse, h, hr, hc]
    · cases hc : goLookup (buildColumnMap props.columns) "Cost" with
      | none => simp only [parseResponse, h, hr, hc]
      | some costIdx => simp only [parseResponse, h, hr, hc, hd]
  · intro props rows costIdx dateIdx h hr hc hd
    simp only [parseResponse, h, hr, hc, hd, List.length_map]
  · intro props rows h hr
    cases hc : goLookup (buildColumnMap props.columns) "Cost" with
    | none => simp only [parseResponse, h, hr, hc, List.length_nil]; omega
    | some costIdx =>
      cases hd : goLookup (buildColumnMap props.columns) "UsageDate" with
      | none => simp only [parseResponse, h, hr, hc, hd, List.length_nil]; omega
      | some dateIdx =>
        simp only [parseResponse, h, hr, hc, hd, List.length_map]
        exact List.length_filter_le _ rows

/-- C9, witness: a result with nil properties parses to no records. -/
theorem claim_C9_parseResponse_witness :
    parseResponse ⟨none⟩ ⟨"id-w", "W"⟩ "EUR" = [] :=
  (claim_C9_parseResponse ⟨none⟩ ⟨"id-w", "W"⟩ "EUR").1 rfl

/-- C10: every record produced by `parseRow` has a non-empty `Service`: the
`ServiceName` value of the row when non-empty, otherwise its `MeterCategory`
value when non-empty, otherwise the literal "Unknown". -/
theorem claim_C10_service (row : List CellValue) (columnMap : List (String × Nat))
    (costIdx dateIdx : Nat) (sub : Subscription) (currency : String) :
    (parseRow row columnMap costIdx dateIdx sub currency).service ≠ "" ∧
    (getStringFromRow row columnMap "ServiceName" ≠ "" →
      (parseRow row columnMap costIdx dateIdx sub currency).service =
        getStringFromRow row columnMap "ServiceName") ∧
    (getStringFromRow row columnMap "ServiceName" = "" →
      getStringFromRow row columnMap "MeterCategory" ≠ "" →
      (parseRow row columnMap costIdx dateIdx sub currency).service =
        getStringFromRow row columnMap "MeterCategory") ∧
    (getStringFromRow row columnMap "ServiceName" = "" →
      getStringFromRow row columnMap "MeterCategory" = "" →
      (parseRow row columnMap costIdx dateIdx sub currency).service = "Unknown") := by
  have hsvc : (parseRow row columnMap costIdx dateIdx sub currency).service =
      extractService row columnMap := rfl
  rw [hsvc]
  by_cases hs : getStringFromRow row columnMap "ServiceName" = ""
  · by_cases hm : getStringFromRow row columnMap "MeterCategory" = ""
    · have he : extractService row columnMap = "Unknown" := by
        unfold extractService
        rw [if_neg (not_not_intro hs), if_neg (not_not_intro hm)]
      refine ⟨by rw [he]; decide, fun hcontra => absurd hs hcontra,
        fun _ hcontra => absurd hm hcontra, fun _ _ => he⟩
    · have he : extractService row columnMap =
          getStringFromRow row columnMap "MeterCategory" := by
        unfold extractService
        rw [if_neg (not_not_intro hs), if_pos hm]
      exact ⟨by rw [he]; exact hm, fun hcontra => absurd hs hcontra,
        fun _ _ => he, fun _ hcontra => absurd hcontra hm⟩
  · have he : extractService row columnMap =
        getStringFromRow row columnMap "ServiceName" := by
      unfold extractService
      rw [if_pos hs]
    exact ⟨by rw [he]; exact hs, fun _ => he,
      fun hcontra => absurd hcontra hs, fun hcontra => absurd hcontra hs⟩

/-- C10, witness: with no `ServiceName` column and `MeterCategory`
"Networking", the parsed record's service is "Networking". -/
theorem claim_C10_service_witness :
    (parseRow [CellValue.str "Networking"] [("MeterCategory", 0)] 0 0
        ⟨"id-w", "W"⟩ "EUR").service =
      getStringFromRow [CellValue.str "Networking"] [("MeterCategory", 0)] "MeterCategory" :=
  (claim_C10_service [CellValue.str "Networking"] [("MeterCategory", 0)] 0 0
    ⟨"id-w", "W"⟩ "EUR").2.2.1 (by decide) (by decide)

/-- Subscription "A" of the C2 counterexample. -/
def c2sub1 : Subscription := ⟨"id-a", "A"⟩

/-- Subscription "B" of the C2 counterexample. -/
def c2sub2 : Subscription := ⟨"id-b", "B"⟩

/-- Per-subscription outcomes of the C2 counterexample: A succeeds with zero
rows, B fails terminally. -/
def c2query : Subscription → Except String (List CostRecord) :=
  fun sub => if sub.name = "A" then Except.ok [] else Except.error "boom"

/-- C2, counterexample: subscription A succeeds (returning zero rows) while
B fails, so NOT all accounts fail — yet `QueryCosts` returns a non-nil
error, because its error condition is `len(errors) > 0 && len(allRecords)
== 0`, not "all subscriptions failed". -/
theorem claim_C2_counterexample :
    c2query c2sub1 = Except.ok [] ∧
    QueryCosts [c2sub1, c2sub2] c2query =
      Except.error (allFailedMsg 2 ["subscription B: boom"]) := by
  constructor
  · rfl
  · rfl

/-- C2, amended: `QueryCosts` returns a non-nil error iff at least one
subscription fails AND the merged rows of the succeeding subscriptions are
empty; otherwise it returns the merged rows (in subscription order) with a
nil error.  In particular, when all accounts fail it errors, and when some
fail but the successes contribute at least one row it succeeds with the
partial data. -/
theorem claim_C2_amended (subs : List Subscription)
    (query : Subscription → Except String (List CostRecord)) :
    (QueryCosts subs query = Except.ok (mergedRecords subs query) ∨
      QueryCosts subs query =
        Except.error (allFailedMsg subs.length (failMsgs subs query))) ∧
    ((∃ e, QueryCosts subs query = Except.error e) ↔
      ((∃ sub ∈ subs, ∃ e, query sub = Except.error e) ∧
        mergedRecords subs query = [])) := by
  rw [queryCosts_eq]
  by_cases hcond : failMsgs subs query ≠ [] ∧ mergedRecords subs query = []
  · rw [if_pos hcond]
    refine ⟨Or.inr rfl, ?_, ?_⟩
    · intro _
      exact ⟨(failMsgs_ne_nil_iff subs query).mp hcond.1, hcond.2⟩
    · intro _
      exact ⟨_, rfl⟩
  · rw [if_neg hcond]
    refine ⟨Or.inl rfl, ?_, ?_⟩
    · rintro ⟨e, he⟩
      exact Except.noConfusion he
    · rintro ⟨hex, hmerged⟩
      exact absurd ⟨(failMsgs_ne_nil_iff subs query).mpr hex, hmerged⟩ hcond

/-- C2, witness: one subscription succeeding with one row makes the cycle
succeed with exactly the merged rows. -/
theorem claim_C2_amended_witness :
    QueryCosts [c2sub1] (fun _ => Except.ok [emptyRecord]) =
      Except.ok (mergedRecords [c2sub1] (fun _ => Except.ok [emptyRecord])) := by
  rcases (claim_C2_amended [c2sub1] (fun _ => Except.ok [emptyRecord])).1 with h | h
  · exact h
  · exact Except.noConfusion h

/-! ### C8 supporting lemmas -/

theorem backoffRetry_all_fail {α : Type} (op : Nat → Except String α)
    (interval : Nat → Nat) (maxElapsed : Nat)
    (hfail : ∀ n, ∃ e, op n = Except.error e) :
    ∀ (fuel n elapsed : Nat), ∃ k e, op k = Except.error e ∧
      backoffRetry op interval maxElapsed fuel n elapsed = Except.error e := by
  intro fuel
  induction fuel with
  | zero =>
    intro n elapsed
    obtain ⟨e, he⟩ := hfail n
    exact ⟨n, e, he, he⟩
  | succ fuel ih =>
    intro n elapsed
    obtain ⟨e, he⟩ := hfail n
    by_cases hb : maxElapsed < elapsed + interval n
    · refine ⟨n, e, he, ?_⟩
      simp only [backoffRetry]
      rw [he]
      dsimp only
      rw [if_pos hb]
    · obtain ⟨k, e2, he2, hres⟩ := ih (n + 1) (elapsed + interval n)
      refine ⟨k, e2, he2, ?_⟩
      simp only [backoffRetry]
      rw [he]
      dsimp only
      rw [if_neg hb]
      exact hres

theorem backoffRetry_ok_aux {α : Type} (op : Nat → Except String α)
    (interval : Nat → Nat) (maxElapsed : Nat) (a : α) :
    ∀ (d fuel n elapsed : Nat), d < fuel →
      (∀ k, k < d → ∃ e, op (n + k) = Except.error e) →
      op (n + d) = Except.ok a →
      (∀ k, k < d → elapsed + sumIntervalsFrom interval n (k + 1) ≤ maxElapsed) →
      backoffRetry op interval maxElapsed fuel n elapsed = Except.ok a := by
  intro d
  induction d with
  | zero =>
    intro fuel n elapsed hfuel hprev hok hbudget
    rw [Nat.add_zero] at hok
    cases fuel with
    | zero => omega
    | succ f =>
      simp only [backoffRetry]
      rw [hok]
  | succ d ih =>
    intro fuel n elapsed hfuel hprev hok hbudget
    cases fuel with
    | zero => omega
    | succ f =>
      obtain ⟨e, he⟩ := hprev 0 (Nat.succ_pos d)
      rw [Nat.add_zero] at he
      simp only [backoffRetry]
      rw [he]
      dsimp only
      have hb0 : elapsed + interval n ≤ maxElapsed := by
        have := hbudget 0 (Nat.succ_pos d)
        simpa [sumIntervalsFrom] using this
      rw [if_neg (by omega)]
      apply ih f (n + 1) (elapsed + interval n) (by omega)
      · intro k hk
        have hpk := hprev (k + 1) (by omega)
        rw [show n + (k + 1) = n + 1 + k from by omega] at hpk
        exact hpk
      · rw [show n + 1 + d = n + (d + 1) from by omega]
        exact hok
      · intro k hk
        have hbk := hbudget (k + 1) (by omega)
        rw [show sumIntervalsFrom interval n (k + 1 + 1) =
            interval n + sumIntervalsFrom interval (n + 1) (k + 1) from rfl] at hbk
        omega

theorem sumIntervalsFrom_ge (interval : Nat → Nat) (hpos : ∀ n, 1 ≤ interval n) :
    ∀ (m n : Nat), m ≤ sumIntervalsFrom interval n m := by
  intro m
  induction m with
  | zero => intro n; exact Nat.zero_le _
  | succ m ih =>
    intro n
    simp only [sumIntervalsFrom]
    have h1 := hpos n
    have h2 := ih (n + 1)
    omega

/-- C8: the per-account retrying query treats every error as retryable —
attempts keep being retried as long as the elapsed-time budget
`MaxRetryElapsedTime` is not exceeded, and a successful attempt's rows are
returned with no error; when every attempt fails, it returns a terminal
error that wraps some attempt's underlying error in a message naming the
subscription's name and ID (and carries no rows). -/
theorem claim_C8_retry (sub : Subscription)
    (attempt : Nat → Except String (List CostRecord)) (interval : Nat → Nat)
    (hpos : ∀ n, 1 ≤ interval n) :
    ((∀ n, ∃ e, attempt n = Except.error e) →
      ∃ k e, attempt k = Except.error e ∧
        queryCostsForSubscription sub attempt interval =
          Except.error (terminalMsg sub e)) ∧
    (∀ (n : Nat) (rows : List CostRecord),
      (∀ k, k < n → ∃ e, attempt k = Except.error e) →
      attempt n = Except.ok rows →
      (∀ k, k < n → sumIntervalsFrom interval 0 (k + 1) ≤ MaxRetryElapsedTime) →
      queryCostsForSubscription sub attempt interval = Except.ok rows) := by
  constructor
  · intro hfail
    obtain ⟨k, e, he, hres⟩ := backoffRetry_all_fail attempt interval
      MaxRetryElapsedTime hfail (MaxRetryElapsedTime + 1) 0 0
    refine ⟨k, e, he, ?_⟩
    unfold queryCostsForSubscription
    rw [hres]
  · intro n rows hprev hok hbudget
    have hn : n < MaxRetryElapsedTime + 1 := by
      cases n with
      | zero =>
        unfold MaxRetryElapsedTime
        omega
      | succ m =>
        have hb := hbudget m (Nat.lt_succ_self m)
        have hs := sumIntervalsFrom_ge interval hpos (m + 1) 0
        omega
    have hres := backoffRetry_ok_aux attempt interval MaxRetryElapsedTime rows
      n (MaxRetryElapsedTime + 1) 0 0 hn
      (by simpa using hprev) (by simpa using hok) (by simpa using hbudget)
    unfold queryCostsForSubscription
    rw [hres]

/-- C8, witness: a first-attempt success returns that attempt's rows. -/
theorem claim_C8_retry_witness :
    queryCostsForSubscription ⟨"id-w", "W"⟩ (fun _ => Except.ok []) (fun _ => 1) =
      Except.ok [] :=
  (claim_C8_retry ⟨"id-w", "W"⟩ (fun _ => Except.ok []) (fun _ => 1)
      (fun _ => le_refl 1)).2 0 []
    (fun k hk => absurd hk (Nat.not_lt_zero k)) rfl
    (fun k hk => absurd hk (Nat.not_lt_zero k))

/-- Right-commutative folds are invariant under permutation of the folded
list (used only for the exact-arithmetic conjunct of C1). -/
theorem foldl_perm_of_rightcomm {α β : Type} (f : β → α → β)
    (hrc : ∀ (b : β) (a1 a2 : α), f (f b a1) a2 = f (f b a2) a1) :
    ∀ {l1 l2 : List α}, l1.Perm l2 → ∀ b, l1.foldl f b = l2.foldl f b := by
  intro l1 l2 hp
  induction hp with
  | nil => intro b; rfl
  | cons x hsub ih =>
    intro b
    simp only [List.foldl_cons]
    exact ih (f b x)
  | swap x y l =>
    intro b
    simp only [List.foldl_cons]
    rw [hrc]
  | trans h1 h2 ih1 ih2 =>
    intro b
    rw [ih1 b, ih2 b]

/-- Label projection of the C1 counterexample. -/
def c1names : List String := ["provider", "account_name"]

/-- C1 counterexample record with label tuple `["a|b", ""]` and cost 1. -/
def c1rec1 : CostRecord := { emptyRecord with provider := "a|b", cost := 1 }

/-- C1 counterexample record with label tuple `["a", "b|"]` and cost 2. -/
def c1rec2 : CostRecord := { emptyRecord with provider := "a", accountName := "b|", cost := 2 }

/-- C1, counterexample: the aggregation key is `strings.Join(values, "|")`,
so the distinct label tuples `["a|b", ""]` and `["a", "b|"]` collide on the
key "a|b|" and are merged: aggregating the two records yields a single
entry holding the second tuple with cost 3 — there is no entry for the
first record's tuple (a group of N=1 rows with cost sum 1), and the one
entry's cost 3 is not the cost sum 2 of the rows bearing its tuple.  The
accumulation is evaluated at exact arithmetic on the whole costs 1 and 2,
on which float64 addition agrees, so the collision does not depend on the
arithmetic idealization. -/
theorem claim_C1_counterexample :
    extractLabelValues c1rec1 c1names = ["a|b", ""] ∧
    extractLabelValues c1rec2 c1names = ["a", "b|"] ∧
    (["a|b", ""] : List String) ≠ ["a", "b|"] ∧
    collectAggregate (· + ·) (0 : ℚ) CostRecord.cost [c1rec1, c1rec2] c1names =
      [("a|b|", (["a", "b|"], 3))] ∧
    c1rec1.cost = 1 ∧ c1rec2.cost = 2 := by
  refine ⟨rfl, rfl, by decide, ?_, rfl, rfl⟩
  have h1 : collectAggregate (· + ·) (0 : ℚ) CostRecord.cost [c1rec1, c1rec2] c1names
      = [("a|b|", (["a", "b|"], (0 : ℚ) + 1 + 2))] := rfl
  rw [h1]
  norm_num

/-- Order marker record A for the order-dependence demonstration. -/
def cOrdA : CostRecord := { emptyRecord with provider := "p", date := "x" }

/-- Order marker record B for the order-dependence demonstration. -/
def cOrdB : CostRecord := { emptyRecord with provider := "p", date := "y" }

/-- The accumulated value of an entry depends on the input row order when
the accumulation operation is not commutative — as IEEE-754 float64
addition is not: here the carrier `String` with concatenation records the
accumulation order, and swapping two rows that share one label tuple
changes the aggregated value.  This is why the amended C1 claims value
permutation-invariance only under commutativity and associativity. -/
theorem collectAggregate_order_dependent :
    collectAggregate (fun a b => a ++ b) "" CostRecord.date [cOrdA, cOrdB] ["provider"] ≠
      collectAggregate (fun a b => a ++ b) "" CostRecord.date [cOrdB, cOrdA] ["provider"] := by
  decide

/-- C1, amended: the `Collect` accumulation is Go float64 `+=`, kept
abstract here (`add`, with no algebraic law assumed), and the aggregation
key is the `"|"`-join of the label values.  Provided no extracted label
value contains the separator character `'|'` (so joined keys are in
bijection with tuples): (1) every input record's tuple owns exactly one
entry, whose cost is the left-to-right accumulation, in input-row order,
of the costs of the records sharing that tuple — equal to their exact sum
only when `add` is commutative and associative, which float64 is not; (2)
which entries exist and which tuple each holds is invariant under
permutation of the input rows; (3) no two entries share a tuple (this
invariant holds unconditionally); and (4) under commutativity and
associativity of `add` — the exact-arithmetic idealization the spec's
"map/sum is commutative" appeals to — the entries' accumulated values are
also permutation-invariant. -/
theorem claim_C1_aggregation {F : Type} (add : F → F → F) (zero : F)
    (costOf : CostRecord → F) (records : List CostRecord) (names : List String)
    (H : ∀ r ∈ records, ∀ v ∈ extractLabelValues r names, '|' ∉ v.data) :
    (∀ r ∈ records,
      (collectAggregate add zero costOf records names).filter
          (fun e => e.2.1 = extractLabelValues r names) =
        [(recKey names r,
          (extractLabelValues r names,
            ((records.filter fun x =>
                extractLabelValues x names = extractLabelValues r names).map
              costOf).foldl add zero))]) ∧
    (∀ records2, records2.Perm records → ∀ key,
      Option.map (fun v => v.1)
          (goLookup (collectAggregate add zero costOf records2 names) key) =
        Option.map (fun v => v.1)
          (goLookup (collectAggregate add zero costOf records names) key)) ∧
    (∀ e1 ∈ collectAggregate add zero costOf records names,
      ∀ e2 ∈ collectAggregate add zero costOf records names,
        e1.2.1 = e2.2.1 → e1 = e2) ∧
    ((∀ a b, add a b = add b a) → (∀ a b c, add (add a b) c = add a (add b c)) →
      ∀ records2, records2.Perm records → ∀ key,
        goLookup (collectAggregate add zero costOf records2 names) key =
          goLookup (collectAggregate add zero costOf records names) key) := by
  refine ⟨?_, ?_, ?_, ?_⟩
  · intro r hr
    have hrk : r ∈ records.filter fun x => recKey names x = recKey names r :=
      List.mem_filter.mpr ⟨hr, by simp⟩
    cases hlast : (records.filter fun x => recKey names x = recKey names r).getLast? with
    | none =>
      exact absurd (List.getLast?_eq_none_iff.mp hlast ▸ hrk) (List.not_mem_nil r)
    | some rl =>
      have hrlmem := list_getLast?_mem _ _ hlast
      have hrlrec : rl ∈ records := (List.mem_filter.mp hrlmem).1
      have hrlkey : recKey names rl = recKey names r := by
        simpa using (List.mem_filter.mp hrlmem).2
      have hrlex : extractLabelValues rl names = extractLabelValues r names :=
        extract_eq_of_recKey_eq names rl r (H rl hrlrec) (H r hr) hrlkey
      have hlook : goLookup (collectAggregate add zero costOf records names)
          (recKey names r) =
          some (extractLabelValues r names,
            ((records.filter fun x => recKey names x = recKey names r).map
              costOf).foldl add zero) := by
        rw [collectAggregate_lookup, hlast]
        dsimp only
        rw [hrlex]
      have hmem : (recKey names r,
          (extractLabelValues r names,
            ((records.filter fun x => recKey names x = recKey names r).map
              costOf).foldl add zero)) ∈ collectAggregate add zero costOf records names :=
        mem_of_goLookup_eq_some _ _ _ hlook
      have hkeyfilter : (collectAggregate add zero costOf records names).filter
          (fun e => e.1 = recKey names r) =
          [(recKey names r,
            (extractLabelValues r names,
              ((records.filter fun x => recKey names x = recKey names r).map
                costOf).foldl add zero))] :=
        filter_fst_eq_singleton _ _ _
          (collectAggregate_keys_nodup add zero costOf records names) hmem
      have hco := collectAggregate_key_coherent add zero costOf records names
      have hfiltereq : (collectAggregate add zero costOf records names).filter
          (fun e => e.2.1 = extractLabelValues r names) =
          (collectAggregate add zero costOf records names).filter
            (fun e => e.1 = recKey names r) := by
        apply List.filter_congr
        intro e he
        rw [decide_eq_decide]
        constructor
        · intro htup
          rw [hco e he, htup]
          rfl
        · intro hkey
          obtain ⟨rl2, hrl2rec, hrl2⟩ :=
            collectAggregate_mem_shape add zero costOf records names e he
          have h1 : e.1 = stringsJoin "|" (extractLabelValues rl2 names) := by
            rw [hco e he, hrl2]
          have hkey2 : recKey names rl2 = recKey names r := by
            calc recKey names rl2 = e.1 := h1.symm
              _ = recKey names r := hkey
          rw [hrl2]
          exact extract_eq_of_recKey_eq names rl2 r (H rl2 hrl2rec) (H r hr) hkey2
      have hsumeq : (records.filter fun x => recKey names x = recKey names r) =
          records.filter fun x =>
            extractLabelValues x names = extractLabelValues r names := by
        apply List.filter_congr
        intro x hx
        rw [decide_eq_decide]
        constructor
        · intro hk
          exact extract_eq_of_recKey_eq names x r (H x hx) (H r hr) hk
        · intro hex
          unfold recKey
          rw [hex]
      rw [hfiltereq, hkeyfilter, hsumeq]
  · intro records2 hperm key
    rw [collectAggregate_lookup, collectAggregate_lookup]
    have hpf : (records2.filter fun x => recKey names x = key).Perm
        (records.filter fun x => recKey names x = key) := hperm.filter _
    cases h2 : (records2.filter fun x => recKey names x = key).getLast? with
    | none =>
      have hnil2 := List.getLast?_eq_none_iff.mp h2
      have hnil1 : (records.filter fun x => recKey names x = key) = [] := by
        rw [hnil2] at hpf
        exact (hpf.symm).eq_nil
      rw [hnil1]
      rfl
    | some rl2 =>
      have hne2 : (records2.filter fun x => recKey names x = key) ≠ [] := by
        intro hc
        rw [hc] at h2
        exact Option.noConfusion h2
      have hne1 : (records.filter fun x => recKey names x = key) ≠ [] := by
        intro hc
        rw [hc] at hpf
        exact hne2 hpf.eq_nil
      cases h1 : (records.filter fun x => recKey names x = key).getLast? with
      | none => exact absurd (List.getLast?_eq_none_iff.mp h1) hne1
      | some rl1 =>
        have hm2 := list_getLast?_mem _ _ h2
        have hm1 := list_getLast?_mem _ _ h1
        have hrl2rec : rl2 ∈ records := hperm.mem_iff.mp (List.mem_filter.mp hm2).1
        have hrl1rec : rl1 ∈ records := (List.mem_filter.mp hm1).1
        have hk2 : recKey names rl2 = key := by
          simpa using (List.mem_filter.mp hm2).2
        have hk1 : recKey names rl1 = key := by
          simpa using (List.mem_filter.mp hm1).2
        have hex : extractLabelValues rl2 names = extractLabelValues rl1 names :=
          extract_eq_of_recKey_eq names rl2 rl1 (H rl2 hrl2rec) (H rl1 hrl1rec)
            (hk2.trans hk1.symm)
        dsimp only
        rw [hex]
        rfl
  · intro e1 he1 e2 he2 htup
    have hco := collectAggregate_key_coherent add zero costOf records names
    have hk : e1.1 = e2.1 := by
      rw [hco e1 he1, hco e2 he2, htup]
    exact eq_of_mem_of_fst_eq _
      (collectAggregate_keys_nodup add zero costOf records names) e1 he1 e2 he2 hk
  · intro hcomm hassoc records2 hperm key
    have hrc : ∀ b a1 a2, add (add b a1) a2 = add (add b a2) a1 := by
      intro b a1 a2
      rw [hassoc, hassoc, hcomm a1 a2]
    rw [collectAggregate_lookup, collectAggregate_lookup]
    have hpf : (records2.filter fun x => recKey names x = key).Perm
        (records.filter fun x => recKey names x = key) := hperm.filter _
    cases h2 : (records2.filter fun x => recKey names x = key).getLast? with
    | none =>
      have hnil2 := List.getLast?_eq_none_iff.mp h2
      have hnil1 : (records.filter fun x => recKey names x = key) = [] := by
        rw [hnil2] at hpf
        exact (hpf.symm).eq_nil
      rw [hnil1]
      rfl
    | some rl2 =>
      have hne2 : (records2.filter fun x => recKey names x = key) ≠ [] := by
        intro hc
        rw [hc] at h2
        exact Option.noConfusion h2
      have hne1 : (records.filter fun x => recKey names x = key) ≠ [] := by
        intro hc
        rw [hc] at hpf
        exact hne2 hpf.eq_nil
      cases h1 : (records.filter fun x => recKey names x = key).getLast? with
      | none => exact absurd (List.getLast?_eq_none_iff.mp h1) hne1
      | some rl1 =>
        have hm2 := list_getLast?_mem _ _ h2
        have hm1 := list_getLast?_mem _ _ h1
        have hrl2rec : rl2 ∈ records := hperm.mem_iff.mp (List.mem_filter.mp hm2).1
        have hrl1rec : rl1 ∈ records := (List.mem_filter.mp hm1).1
        have hk2 : recKey names rl2 = key := by
          simpa using (List.mem_filter.mp hm2).2
        have hk1 : recKey names rl1 = key := by
          simpa using (List.mem_filter.mp hm1).2
        have hex : extractLabelValues rl2 names = extractLabelValues rl1 names :=
          extract_eq_of_recKey_eq names rl2 rl1 (H rl2 hrl2rec) (H rl1 hrl1rec)
            (hk2.trans hk1.symm)
        have hfold : ((records2.filter fun x => recKey names x = key).map
            costOf).foldl add zero =
            ((records.filter fun x => recKey names x = key).map costOf).foldl add zero :=
          foldl_perm_of_rightcomm add hrc (hpf.map costOf) zero
        dsimp only
        rw [hex, hfold]

/-- Witness record (cost 10) for the amended C1 theorem. -/
def c1wrec1 : CostRecord := { emptyRecord with provider := "azure", service := "Storage", cost := 10 }

/-- Witness record (cost 15) for the amended C1 theorem. -/
def c1wrec2 : CostRecord := { emptyRecord with provider := "azure", service := "Storage", cost := 15 }

/-- C1, witness: two separator-free records sharing the tuple
`["azure", "Storage"]` aggregate to a unique entry accumulating their
costs in input order. -/
theorem claim_C1_aggregation_witness :
    (collectAggregate (· + ·) (0 : ℚ) CostRecord.cost [c1wrec1, c1wrec2]
        ["provider", "service"]).filter
        (fun e => e.2.1 = extractLabelValues c1wrec1 ["provider", "service"]) =
      [(recKey ["provider", "service"] c1wrec1,
        (extractLabelValues c1wrec1 ["provider", "service"],
          (([c1wrec1, c1wrec2].filter fun x =>
              extractLabelValues x ["provider", "service"] =
                extractLabelValues c1wrec1 ["provider", "service"]).map
            CostRecord.cost).foldl (· + ·) 0))] :=
  (claim_C1_aggregation (· + ·) (0 : ℚ) CostRecord.cost [c1wrec1, c1wrec2]
      ["provider", "service"] (by decide)).1 c1wrec1 (by decide)

end CostExporter
